import Mathlib

/-!
Shallow embedding of the orchestration logic of `liualgotrader/trader.py`:
symbol-universe construction (lines 159-268), shard assignment
(lines 275-300), the session readiness gate (lines 73-106), the
session spawn decision (lines 270-345) and the supervisor shutdown
protocol (lines 333-341).
-/

namespace LiuTrader

/-- Lines 159-226 of `trader.py`: `symbols += scanner_object.run()` for each
configured scanner in configuration order, starting from the empty list.  The
scanner outputs are concatenated exactly as returned; no deduplication happens
in this loop. -/
def scannerSymbols (outs : List (List String)) : List String :=
  outs.foldl (fun acc out => acc ++ out) []

/-- Lines 250-256 of `trader.py`: for each reported open position, in order,
`if position.symbol not in symbols: symbols.append(position.symbol)`. -/
def addOpenPositions (acc : List String) (ps : List String) : List String :=
  ps.foldl (fun acc p => if p ∈ acc then acc else acc ++ [p]) acc

/-- The symbol list the trader hands to the historical prefetcher: the
concatenated scanner outputs followed by the open-position symbols not
already present (lines 159-257). -/
def buildUniverse (outs : List (List String)) (ps : List String) : List String :=
  addOpenPositions (scannerSymbols outs) ps

/-- Modelled from the spec: `get_historical_data_from_polygon` (module
`liualgotrader.common.market_data`, not part of the available sources)
returns a bar buffer keyed by symbol; per the spec, "any requested symbol
for which no data is returned is silently excluded from the resulting
buffer".  `hasData` says which requested symbols have retrievable data.
The max-tickers cap is not modelled; no claim here depends on it. -/
def polygonHistoryKeys (syms : List String) (hasData : String → Bool) : List String :=
  syms.filter hasData

/-- Line 268 of `trader.py`: `symbols = list(minute_history.keys())` - the
final universe is exactly the key list of the fetched historical buffer. -/
def finalUniverse (minuteHistoryKeys : List String) : List String :=
  minuteHistoryKeys

/-- Lines 286-289 of `trader.py`:
`_index = int(list(minute_history.keys()).index(symbol) / ratio)` - the shard
of a symbol is its position in the final universe, floor-divided by the
configured consumer-processes ratio `r`. -/
def shardIndex (syms : List String) (r : Nat) (s : String) : Nat :=
  List.indexOf s syms / r

/-- Line 291 of `trader.py`: `q_id_hash[symbol] = _index`, built for each
symbol in universe order. -/
def q_id_hash (syms : List String) (r : Nat) : List (String × Nat) :=
  syms.map (fun s => (s, shardIndex syms r s))

/-- Lines 296-299 of `trader.py`: the per-shard symbol map, built by the loop
`if _index not in symbol_by_queue: symbol_by_queue[_index] = [symbol]
else: symbol_by_queue[_index].append(symbol)`, one step per symbol in
universe order.  The dictionary is modelled as a function from shard index to
an optional symbol list (`none` when the key is absent). -/
def symbol_by_queue (syms : List String) (r : Nat) : Nat → Option (List String) :=
  List.foldl
    (fun m s => fun j =>
      if j = shardIndex syms r s then some (((m (shardIndex syms r s)).getD []) ++ [s])
      else m j)
    (fun _ => none) syms

/-- Lines 275-277 of `trader.py`:
`_num_consumer_processes = ceil(1.0 * len(symbols) / ratio)`, written with
the natural-number identity for the ceiling of `n / r`. -/
def numConsumerProcesses (n r : Nat) : Nat :=
  (n + r - 1) / r

/-- Observable outcome of the session block of `trader.py` lines 270-345:
how many queues are created, how many consumer processes and whether the
producer process are spawned, and the process exit code. -/
structure SessionOutcome where
  queuesCreated : Nat
  consumersSpawned : Nat
  producerSpawned : Bool
  exitCode : Nat
deriving DecidableEq

/-- Lines 270-345 of `trader.py`: `if len(symbols) > 0`, create one queue per
consumer shard, spawn `_num_consumer_processes` consumers and one producer;
otherwise spawn nothing.  Either way the run ends with `sys.exit(0)`. -/
def runSession (keys : List String) (r : Nat) : SessionOutcome :=
  if 0 < keys.length then
    { queuesCreated := numConsumerProcesses keys.length r
      consumersSpawned := numConsumerProcesses keys.length r
      producerSpawned := true
      exitCode := 0 }
  else
    { queuesCreated := 0
      consumersSpawned := 0
      producerSpawned := false
      exitCode := 0 }

/-- Observable outcome of `ready_to_start` (`trader.py` lines 73-106):
whether the market-calendar lookup was performed (`get_trading_windows`,
line 75), the duration requested from `time.sleep` if any (line 100, the
code sleeps `to_market_open.total_seconds() + 1`), and the returned
readiness. -/
structure GateResult where
  lookedUp : Bool
  slept : Option Int
  ready : Bool
deriving DecidableEq

/-- Lines 73-106 of `trader.py`.  `window` is the pair (market open, market
close) resolved by `get_trading_windows`, or `none` on a non-trading day;
`now` is the current time; `intr` says whether a `KeyboardInterrupt` arrives
during the sleep.  Note line 75 calls `get_trading_windows` before the
bypass flag is consulted, so `lookedUp` is `true` on every path. -/
def ready_to_start (bypass : Bool) (window : Option (Int × Int)) (now : Int)
    (intr : Bool) : GateResult :=
  match window with
  | some (mopen, mclose) =>
      if bypass then { lookedUp := true, slept := none, ready := true }
      else if now < mclose then
        if mopen - now > 0 then
          { lookedUp := true, slept := some (mopen - now + 1), ready := !intr }
        else { lookedUp := true, slept := none, ready := true }
      else { lookedUp := true, slept := none, ready := false }
  | none =>
      if bypass then { lookedUp := true, slept := none, ready := true }
      else { lookedUp := true, slept := none, ready := false }

/-- The spawned process topology of a session: one producer process and the
list of consumer processes, identified by opaque process ids. -/
structure Pipeline where
  producer : Nat
  consumers : List Nat

/-- Lines 333-341 of `trader.py`: the supervisor joins the producer and the
consumers; on `KeyboardInterrupt` it runs `producer.terminate()` and then
`p.terminate()` for every consumer, in order, before returning.  The result
is the list of processes sent a terminate request. -/
def terminateRequests (p : Pipeline) (interrupted : Bool) : List Nat :=
  if interrupted then p.producer :: p.consumers else []

/-! Helper lemmas about the shard-map fold. -/

/-- Unrolling the `symbol_by_queue` fold: the entry at shard index `j` is the
filter of the folded symbols whose index is `j`, appended to whatever the
accumulator already held at `j`; the entry is untouched when that filter is
empty. -/
theorem queue_fold_apply (f : String → Nat) :
    ∀ (l : List String) (m : Nat → Option (List String)) (j : Nat),
      (List.foldl
        (fun m s => fun j =>
          if j = f s then some (((m (f s)).getD []) ++ [s]) else m j)
        m l) j
      = if (l.filter (fun s => f s == j)).isEmpty then m j
        else some ((m j).getD [] ++ l.filter (fun s => f s == j)) := by
  intro l
  induction l with
  | nil => intro m j; simp
  | cons s t ih =>
    intro m j
    rw [List.foldl_cons, ih, List.filter_cons]
    by_cases hfs : f s = j
    · subst hfs
      rcases hft : t.filter (fun u => f u == f s) with _ | ⟨a, as⟩
      · simp [hft]
      · simp [hft, List.append_assoc]
    · have hjs : ¬(j = f s) := fun h => hfs h.symm
      simp [hfs, hjs]

/-- The `symbol_by_queue` entry at index `j`: absent when no symbol has shard
index `j`, otherwise exactly the symbols of shard `j` in universe order. -/
theorem symbol_by_queue_eq (syms : List String) (r j : Nat) :
    symbol_by_queue syms r j =
      if (syms.filter (fun s => shardIndex syms r s == j)).isEmpty then none
      else some (syms.filter (fun s => shardIndex syms r s == j)) := by
  unfold symbol_by_queue
  rw [queue_fold_apply (shardIndex syms r) syms (fun _ => none) j]
  simp

/-- A symbol sits in the bucket of shard `i` exactly when it is in the
universe and its shard index is `i`. -/
theorem mem_symbol_by_queue (syms : List String) (r : Nat) (s : String) (i : Nat) :
    (∃ l, symbol_by_queue syms r i = some l ∧ s ∈ l) ↔
      (s ∈ syms ∧ shardIndex syms r s = i) := by
  rw [symbol_by_queue_eq]
  by_cases h : (syms.filter (fun t => shardIndex syms r t == i)).isEmpty
  · rw [if_pos h]
    rw [List.isEmpty_iff] at h
    constructor
    · rintro ⟨l, hl, -⟩; cases hl
    · rintro ⟨hmem, hidx⟩
      have : s ∈ syms.filter (fun t => shardIndex syms r t == i) :=
        List.mem_filter.mpr ⟨hmem, by simp [hidx]⟩
      rw [h] at this
      cases this
  · rw [if_neg h]
    constructor
    · rintro ⟨l, hl, hsl⟩
      have hl2 : l = syms.filter (fun t => shardIndex syms r t == i) :=
        (Option.some.injEq _ _).mp hl.symm
      rw [hl2] at hsl
      have := List.mem_filter.mp hsl
      exact ⟨this.1, by simpa using this.2⟩
    · rintro ⟨hmem, hidx⟩
      exact ⟨_, rfl, List.mem_filter.mpr ⟨hmem, by simp [hidx]⟩⟩

/-- Looking up a list element in the pairing of the list with a function
returns the function value. -/
theorem lookup_map_pair (f : String → Nat) :
    ∀ (l : List String) (s : String), s ∈ l →
      List.lookup s (l.map (fun t => (t, f t))) = some (f s) := by
  intro l
  induction l with
  | nil => intro s hs; cases hs
  | cons a t ih =>
    intro s hs
    by_cases hsa : s = a
    · subst hsa; simp [List.lookup]
    · have hst : s ∈ t := by
        rcases List.mem_cons.mp hs with h | h
        · exact absurd h hsa
        · exact h
      have hba : (s == a) = false := by simp [hsa]
      simp [List.lookup, hba, ih s hst]

/-- Natural-number floor division as a contiguous range: for positive `r`,
`p / r = i` exactly when `p` lies in the range `[r*i, r*(i+1))`. -/
theorem div_eq_iff_range (p r i : Nat) (hr : 1 ≤ r) :
    p / r = i ↔ (r * i ≤ p ∧ p < r * (i + 1)) := by
  have hr0 : 0 < r := hr
  constructor
  · rintro rfl
    exact ⟨Nat.mul_div_le p r, Nat.lt_mul_div_succ p hr0⟩
  · rintro ⟨h1, h2⟩
    rw [Nat.mul_comm] at h1 h2
    exact Nat.div_eq_of_lt_le h1 h2

/-! Helper lemmas about the universe builder. -/

/-- The open-position merge only appends, so membership in the accumulator is
preserved. -/
theorem mem_addOpenPositions_left (s : String) :
    ∀ (ps acc : List String), s ∈ acc → s ∈ addOpenPositions acc ps := by
  intro ps
  induction ps with
  | nil => intro acc h; exact h
  | cons p t ih =>
    intro acc h
    unfold addOpenPositions
    rw [List.foldl_cons]
    by_cases hp : p ∈ acc
    · rw [if_pos hp]; exact ih acc h
    · rw [if_neg hp]; exact ih (acc ++ [p]) (List.mem_append_left [p] h)

/-- Every open-position symbol ends up in the merged list. -/
theorem mem_addOpenPositions_of_pos (s : String) :
    ∀ (ps acc : List String), s ∈ ps → s ∈ addOpenPositions acc ps := by
  intro ps
  induction ps with
  | nil => intro acc h; cases h
  | cons p t ih =>
    intro acc h
    unfold addOpenPositions
    rw [List.foldl_cons]
    by_cases hsp : s = p
    · subst hsp
      by_cases hp : s ∈ acc
      · rw [if_pos hp]; exact mem_addOpenPositions_left s t acc hp
      · rw [if_neg hp]
        exact mem_addOpenPositions_left s t (acc ++ [s])
          (List.mem_append_right acc (List.mem_singleton.mpr rfl))
    · have hst : s ∈ t := by
        rcases List.mem_cons.mp h with h1 | h1
        · exact absurd h1 hsp
        · exact h1
      by_cases hp : p ∈ acc
      · rw [if_pos hp]; exact ih acc hst
      · rw [if_neg hp]; exact ih (acc ++ [p]) hst

/-- The open-position merge extends the accumulator on the right, so the
accumulator is an initial segment of the result. -/
theorem addOpenPositions_eq_append :
    ∀ (ps acc : List String), ∃ t, addOpenPositions acc ps = acc ++ t := by
  intro ps
  induction ps with
  | nil => intro acc; exact ⟨[], (List.append_nil acc).symm⟩
  | cons p t ih =>
    intro acc
    unfold addOpenPositions
    rw [List.foldl_cons]
    by_cases hp : p ∈ acc
    · rw [if_pos hp]; exact ih acc
    · rw [if_neg hp]
      rcases ih (acc ++ [p]) with ⟨u, hu⟩
      unfold addOpenPositions at hu
      exact ⟨p :: u, by rw [hu, List.append_assoc]; rfl⟩

/-- Occurrence count after the open-position merge: symbols already in the
accumulator keep their count, a missing open-position symbol is appended
exactly once, and everything else is untouched. -/
theorem addOpenPositions_count (s : String) :
    ∀ (ps acc : List String),
      (addOpenPositions acc ps).count s =
        if s ∈ acc then acc.count s
        else if s ∈ ps then 1 else 0 := by
  intro ps
  induction ps with
  | nil =>
    intro acc
    by_cases h : s ∈ acc
    · simp [addOpenPositions, h]
    · simp [addOpenPositions, h, List.count_eq_zero.mpr h]
  | cons p t ih =>
    intro acc
    unfold addOpenPositions
    rw [List.foldl_cons]
    by_cases hp : p ∈ acc
    · rw [if_pos hp]
      have := ih acc
      unfold addOpenPositions at this
      rw [this]
      by_cases hs : s ∈ acc
      · simp [hs]
      · have hsp : ¬s = p := fun h => hs (h ▸ hp)
        simp [hs, hsp, List.mem_cons]
    · rw [if_neg hp]
      have := ih (acc ++ [p])
      unfold addOpenPositions at this
      rw [this]
      by_cases hsp : s = p
      · subst hsp
        have hs : s ∉ acc := hp
        simp [hs, List.count_append, List.count_eq_zero.mpr hs]
      · by_cases hs : s ∈ acc
        · simp [hs, hsp, List.count_append, List.mem_append, List.mem_singleton]
        · have : s ∉ acc ++ [p] := by
            simp [List.mem_append, List.mem_singleton, hs, hsp]
          simp [this, hs, hsp, List.mem_cons]

/-- The natural-number formula `(n + r - 1) / r` used by
`numConsumerProcesses` computes the exact rational ceiling of `n / r`. -/
theorem numConsumerProcesses_eq_ceil (n r : Nat) (hr : 1 ≤ r) :
    (numConsumerProcesses n r : Int) = ⌈(n : ℚ) / (r : ℚ)⌉ := by
  have hr0 : 0 < r := hr
  have hrQ : (0 : ℚ) < (r : ℚ) := by exact_mod_cast hr0
  symm
  rw [Int.ceil_eq_iff]
  constructor
  · rw [lt_div_iff₀ hrQ]
    rcases Nat.eq_zero_or_pos (numConsumerProcesses n r) with h0 | hpos
    · rw [h0]
      have hn0 : (0 : ℚ) ≤ (n : ℚ) := by positivity
      push_cast
      nlinarith
    · obtain ⟨j, hj⟩ : ∃ j, numConsumerProcesses n r = j + 1 :=
        ⟨numConsumerProcesses n r - 1, by omega⟩
      have hjr : j * r < n := by
        by_contra hle
        push_neg at hle
        have hlt : n + r - 1 < (j + 1) * r := by
          rw [Nat.succ_mul]
          omega
        have hdiv : numConsumerProcesses n r < j + 1 :=
          (Nat.div_lt_iff_lt_mul hr0).mpr hlt
        omega
      rw [hj]
      have hjrQ : (j : ℚ) * (r : ℚ) < (n : ℚ) := by exact_mod_cast hjr
      push_cast
      nlinarith [hjrQ]
  · rw [div_le_iff₀ hrQ]
    have hub : n ≤ numConsumerProcesses n r * r := by
      by_contra hlt
      push_neg at hlt
      have h1 : (numConsumerProcesses n r + 1) * r ≤ n + r - 1 := by
        rw [Nat.succ_mul]
        omega
      have h2 : numConsumerProcesses n r + 1 ≤ numConsumerProcesses n r :=
        (Nat.le_div_iff_mul_le hr0).mpr h1
      omega
    push_cast
    exact_mod_cast hub

/-! Claim theorems. -/

/-- C1: for every final universe (the duplicate-free ordered key list of the
historical buffer) and every ratio `r ≥ 1`, `q_id_hash` assigns each symbol
the shard index `floor(position_in_universe / r)`; a symbol lies in the
bucket of shard `i` exactly when its position lies in the contiguous range
`[r*i, r*(i+1))` of the universe's insertion order; and every symbol of the
universe appears in exactly one shard bucket. -/
theorem C1_shard_assignment (syms : List String) (r : Nat) (hr : 1 ≤ r)
    (hnd : syms.Nodup) (s : String) (hs : s ∈ syms) :
    List.lookup s (q_id_hash syms r) = some (List.indexOf s syms / r) ∧
    (∀ i, (∃ l, symbol_by_queue syms r i = some l ∧ s ∈ l) ↔
      (r * i ≤ List.indexOf s syms ∧ List.indexOf s syms < r * (i + 1))) ∧
    (∃! i, ∃ l, symbol_by_queue syms r i = some l ∧ s ∈ l) := by
  refine ⟨lookup_map_pair (shardIndex syms r) syms s hs, ?_, ?_⟩
  · intro i
    rw [mem_symbol_by_queue]
    constructor
    · rintro ⟨-, hidx⟩
      exact (div_eq_iff_range (List.indexOf s syms) r i hr).mp hidx
    · intro hrange
      exact ⟨hs, (div_eq_iff_range (List.indexOf s syms) r i hr).mpr hrange⟩
  · refine ⟨shardIndex syms r s, (mem_symbol_by_queue syms r s _).mpr ⟨hs, rfl⟩, ?_⟩
    intro i hi
    exact ((mem_symbol_by_queue syms r s i).mp hi).2.symm

/-- C1 witness: the assignment facts instantiated on the universe
`["A", "B", "C"]` with ratio 2 and symbol "C". -/
theorem C1_shard_assignment_witness :
    List.lookup "C" (q_id_hash ["A", "B", "C"] 2) =
      some (List.indexOf "C" ["A", "B", "C"] / 2) ∧
    (∀ i, (∃ l, symbol_by_queue ["A", "B", "C"] 2 i = some l ∧ "C" ∈ l) ↔
      (2 * i ≤ List.indexOf "C" ["A", "B", "C"] ∧
        List.indexOf "C" ["A", "B", "C"] < 2 * (i + 1))) ∧
    (∃! i, ∃ l, symbol_by_queue ["A", "B", "C"] 2 i = some l ∧ "C" ∈ l) :=
  C1_shard_assignment ["A", "B", "C"] 2 (by decide) (by decide) "C" (by decide)

/-- C2: for a final universe of size `n ≥ 1` and ratio `r ≥ 1`, the consumer
count (and the queue count) spawned by the session equals exactly the
ceiling of `n / r`. -/
theorem C2_consumer_count (keys : List String) (r : Nat) (hn : 1 ≤ keys.length)
    (hr : 1 ≤ r) :
    (runSession keys r).consumersSpawned = numConsumerProcesses keys.length r ∧
    (runSession keys r).queuesCreated = numConsumerProcesses keys.length r ∧
    ((numConsumerProcesses keys.length r : Int) = ⌈(keys.length : ℚ) / (r : ℚ)⌉) := by
  have hpos : 0 < keys.length := hn
  refine ⟨?_, ?_, numConsumerProcesses_eq_ceil keys.length r hr⟩ <;>
    simp [runSession, hpos]

/-- C2 witness: three symbols with ratio 2 give `ceil(3/2) = 2` consumers. -/
theorem C2_consumer_count_witness :
    (runSession ["A", "B", "C"] 2).consumersSpawned =
      numConsumerProcesses (["A", "B", "C"] : List String).length 2 ∧
    (runSession ["A", "B", "C"] 2).queuesCreated =
      numConsumerProcesses (["A", "B", "C"] : List String).length 2 ∧
    ((numConsumerProcesses (["A", "B", "C"] : List String).length 2 : Int) =
      ⌈((["A", "B", "C"] : List String).length : ℚ) / (2 : ℚ)⌉) :=
  C2_consumer_count ["A", "B", "C"] 2 (by decide) (by decide)

/-- C3 counterexample: with two scanners both returning "AAPL" and no open
positions, the universe built by the trader contains "AAPL" twice, not
exactly once - the scanner accumulation loop concatenates without
deduplicating. -/
theorem C3_counterexample :
    (buildUniverse [["AAPL"], ["AAPL"]] []).count "AAPL" = 2 ∧
    ¬((buildUniverse [["AAPL"], ["AAPL"]] []).count "AAPL" = 1) := by
  decide

/-- C3 amended: the builder keeps every scanner occurrence of a symbol (as
many copies as in the concatenated scanner outputs, first occurrence at the
same position); only the open-position merge deduplicates, appending a
position symbol exactly once and only when it is not already present. -/
theorem C3_amended (outs : List (List String)) (ps : List String) (s : String) :
    (buildUniverse outs ps).count s =
      (if s ∈ scannerSymbols outs then (scannerSymbols outs).count s
       else if s ∈ ps then 1 else 0) ∧
    (s ∈ scannerSymbols outs →
      List.indexOf s (buildUniverse outs ps) = List.indexOf s (scannerSymbols outs)) := by
  constructor
  · exact addOpenPositions_count s ps (scannerSymbols outs)
  · intro hs
    rcases addOpenPositions_eq_append ps (scannerSymbols outs) with ⟨t, ht⟩
    unfold buildUniverse
    rw [ht]
    exact List.indexOf_append_of_mem hs

/-- C3 witness: the amended count and position facts instantiated on the
duplicated-scanner example. -/
theorem C3_amended_witness :
    (buildUniverse [["AAPL"], ["AAPL"]] []).count "AAPL" =
      (if "AAPL" ∈ scannerSymbols [["AAPL"], ["AAPL"]] then
        (scannerSymbols [["AAPL"], ["AAPL"]]).count "AAPL"
       else if "AAPL" ∈ ([] : List String) then 1 else 0) ∧
    List.indexOf "AAPL" (buildUniverse [["AAPL"], ["AAPL"]] []) =
      List.indexOf "AAPL" (scannerSymbols [["AAPL"], ["AAPL"]]) :=
  ⟨(C3_amended [["AAPL"], ["AAPL"]] [] "AAPL").1,
   (C3_amended [["AAPL"], ["AAPL"]] [] "AAPL").2 (by decide)⟩

/-- C4 counterexample: an open position in "X" that no scanner selected is in
the requested universe, but when the historical fetch returns no data for it,
the final universe (line 268, the one that is sharded) does not contain
it. -/
theorem C4_counterexample :
    "X" ∈ buildUniverse [] ["X"] ∧
    "X" ∉ finalUniverse (polygonHistoryKeys (buildUniverse [] ["X"]) (fun _ => false)) := by
  decide

/-- C4 amended: every open-position symbol is present in the universe the
trader requests history for, even if no scanner selected it; it is present in
the final (sharded) universe exactly when the historical fetch returned data
for it. -/
theorem C4_amended (outs : List (List String)) (ps : List String)
    (hasData : String → Bool) (s : String) (hs : s ∈ ps) :
    s ∈ buildUniverse outs ps ∧
    (s ∈ finalUniverse (polygonHistoryKeys (buildUniverse outs ps) hasData) ↔
      hasData s = true) := by
  have hmem : s ∈ buildUniverse outs ps :=
    mem_addOpenPositions_of_pos s ps (scannerSymbols outs) hs
  refine ⟨hmem, ?_⟩
  unfold finalUniverse polygonHistoryKeys
  constructor
  · intro h
    exact (List.mem_filter.mp h).2
  · intro h
    exact List.mem_filter.mpr ⟨hmem, h⟩

/-- C4 witness: the amended facts instantiated with one scanner symbol "A",
open position "X", and a fetch that has data exactly for "X". -/
theorem C4_amended_witness :
    "X" ∈ buildUniverse [["A"]] ["X"] ∧
    ("X" ∈ finalUniverse
        (polygonHistoryKeys (buildUniverse [["A"]] ["X"]) (fun t => t == "X")) ↔
      (fun t => t == "X") "X" = true) :=
  C4_amended [["A"]] ["X"] (fun t => t == "X") "X" (by decide)

/-- C5: a symbol of the discovered universe that is absent from the
historical-buffer keys is not in the final universe and sits in no shard
bucket; moreover the sharded symbols are exactly the buffer keys. -/
theorem C5_history_is_final_filter (uni keys : List String) (r : Nat)
    (hr : 1 ≤ r) (s : String) (hu : s ∈ uni) (hk : s ∉ keys) :
    s ∉ finalUniverse keys ∧
    (∀ i l, symbol_by_queue (finalUniverse keys) r i = some l → s ∉ l) ∧
    (∀ t, (∃ i l, symbol_by_queue (finalUniverse keys) r i = some l ∧ t ∈ l) ↔
      t ∈ finalUniverse keys) := by
  refine ⟨hk, ?_, ?_⟩
  · intro i l hl hsl
    exact hk ((mem_symbol_by_queue (finalUniverse keys) r s i).mp ⟨l, hl, hsl⟩).1
  · intro t
    constructor
    · rintro ⟨i, hmem⟩
      exact ((mem_symbol_by_queue (finalUniverse keys) r t i).mp hmem).1
    · intro ht
      exact ⟨shardIndex (finalUniverse keys) r t,
        (mem_symbol_by_queue (finalUniverse keys) r t _).mpr ⟨ht, rfl⟩⟩

/-- C5 witness: "B" was discovered but has no history, so it is in no shard;
the sharded set is exactly the key list `["A"]`. -/
theorem C5_history_is_final_filter_witness :
    "B" ∉ finalUniverse ["A"] ∧
    (∀ i l, symbol_by_queue (finalUniverse ["A"]) 1 i = some l → "B" ∉ l) ∧
    (∀ t, (∃ i l, symbol_by_queue (finalUniverse ["A"]) 1 i = some l ∧ t ∈ l) ↔
      t ∈ finalUniverse ["A"]) :=
  C5_history_is_final_filter ["A", "B"] ["A"] 1 (by decide) "B" (by decide) (by decide)

/-- C6: with bypass off and a window resolved for today: past the close the
gate reports not ready; before the close and at or past the open it reports
ready immediately with no sleep; before the open it requests a sleep of
`(open - now) + 1` and reports ready unless a `KeyboardInterrupt` arrives
during the sleep, in which case it reports not ready. -/
theorem C6_readiness_gate (mopen mclose now : Int) (intr : Bool) :
    (mclose < now →
      ready_to_start false (some (mopen, mclose)) now intr =
        { lookedUp := true, slept := none, ready := false }) ∧
    (now < mclose → mopen ≤ now →
      ready_to_start false (some (mopen, mclose)) now intr =
        { lookedUp := true, slept := none, ready := true }) ∧
    (now < mclose → now < mopen → intr = false →
      ready_to_start false (some (mopen, mclose)) now intr =
        { lookedUp := true, slept := some (mopen - now + 1), ready := true }) ∧
    (now < mclose → now < mopen → intr = true →
      (ready_to_start false (some (mopen, mclose)) now intr).ready = false) := by
  refine ⟨?_, ?_, ?_, ?_⟩
  · intro h1
    have h2 : ¬(now < mclose) := by omega
    simp [ready_to_start, h2]
  · intro h1 h2
    have h3 : ¬(mopen - now > 0) := by omega
    simp [ready_to_start, h1, h3]
  · intro h1 h2 h3
    have h4 : mopen - now > 0 := by omega
    subst h3
    simp [ready_to_start, h1, h4]
  · intro h1 h2 h3
    have h4 : mopen - now > 0 := by omega
    subst h3
    simp [ready_to_start, h1, h4]

/-- C6 witness: window 09:30-16:00 in minutes (570, 960); at 09:00 the gate
sleeps 31 minutes (expressed as `570 - 540 + 1`) and is ready, at 10:00 it is
ready immediately, at 17:00 it is not ready, and an interrupt during the
09:00 wait makes it not ready. -/
theorem C6_readiness_gate_witness :
    ready_to_start false (some (570, 960)) 540 false =
      { lookedUp := true, slept := some (570 - 540 + 1), ready := true } ∧
    ready_to_start false (some (570, 960)) 600 false =
      { lookedUp := true, slept := none, ready := true } ∧
    ready_to_start false (some (570, 960)) 1020 false =
      { lookedUp := true, slept := none, ready := false } ∧
    (ready_to_start false (some (570, 960)) 540 true).ready = false :=
  ⟨(C6_readiness_gate 570 960 540 false).2.2.1 (by decide) (by decide) rfl,
   (C6_readiness_gate 570 960 600 false).2.1 (by decide) (by decide),
   (C6_readiness_gate 570 960 1020 false).1 (by decide),
   (C6_readiness_gate 570 960 540 true).2.2.2 (by decide) (by decide) rfl⟩

/-- C7 counterexample: with bypass configured the gate still performs the
market-calendar lookup - `get_trading_windows` is called at line 75 before
the bypass flag is consulted - refuting "skips the market-calendar lookup
entirely", both on a trading day and on a non-trading day. -/
theorem C7_counterexample :
    (ready_to_start true none 0 false).lookedUp = true ∧
    (ready_to_start true (some (570, 960)) 1020 false).lookedUp = true := by
  exact ⟨rfl, rfl⟩

/-- C7 amended: with bypass configured the gate reports ready immediately,
with no sleep, regardless of the current time and of what the calendar
returned - but the market-calendar lookup is still performed. -/
theorem C7_amended (window : Option (Int × Int)) (now : Int) (intr : Bool) :
    ready_to_start true window now intr =
      { lookedUp := true, slept := none, ready := true } := by
  rcases window with _ | ⟨mopen, mclose⟩ <;> rfl

/-- C8: when a `KeyboardInterrupt` reaches the supervisor while it waits on
its spawned children, the terminate requests it issues before returning go to
the producer first and then to every consumer. -/
theorem C8_interrupt_terminates_all (p : Pipeline) :
    terminateRequests p true = p.producer :: p.consumers ∧
    p.producer ∈ terminateRequests p true ∧
    ∀ c ∈ p.consumers, c ∈ terminateRequests p true := by
  refine ⟨rfl, ?_, ?_⟩
  · simp [terminateRequests]
  · intro c hc
    simp [terminateRequests, hc]

/-- C8 witness: producer 7 and consumers 8, 9 all receive terminate
requests. -/
theorem C8_interrupt_terminates_all_witness :
    terminateRequests ⟨7, [8, 9]⟩ true = 7 :: [8, 9] ∧
    7 ∈ terminateRequests ⟨7, [8, 9]⟩ true ∧
    ∀ c ∈ [8, 9], c ∈ terminateRequests ⟨7, [8, 9]⟩ true :=
  C8_interrupt_terminates_all ⟨7, [8, 9]⟩

/-- C9: with ratio ≥ 1, a non-empty final universe spawns at least one
consumer shard together with the producer; zero consumers and no producer
happen exactly when the final universe is empty; and the session exits with
code 0 in both cases. -/
theorem C9_spawn_iff_nonempty (keys : List String) (r : Nat) (hr : 1 ≤ r) :
    (keys ≠ [] → 1 ≤ (runSession keys r).consumersSpawned ∧
      (runSession keys r).producerSpawned = true) ∧
    (((runSession keys r).consumersSpawned = 0 ∧
      (runSession keys r).producerSpawned = false) ↔ keys = []) ∧
    (runSession keys r).exitCode = 0 := by
  by_cases h : keys = []
  · subst h
    simp [runSession]
  · have hlen : 0 < keys.length := List.length_pos.mpr h
    have hcount : 1 ≤ numConsumerProcesses keys.length r := by
      unfold numConsumerProcesses
      rw [Nat.le_div_iff_mul_le hr]
      omega
    have hC : (runSession keys r).consumersSpawned =
        numConsumerProcesses keys.length r := by
      simp [runSession, hlen]
    have hP : (runSession keys r).producerSpawned = true := by
      simp [runSession, hlen]
    refine ⟨fun _ => ⟨hC ▸ hcount, hP⟩, ?_, by simp [runSession, hlen]⟩
    refine iff_of_false ?_ h
    rintro ⟨-, hfalse⟩
    rw [hP] at hfalse
    cases hfalse

/-- C9 witness: universe `["A"]` with ratio 1 spawns one consumer and the
producer and exits 0; the empty universe spawns nothing and exits 0. -/
theorem C9_spawn_iff_nonempty_witness :
    (1 ≤ (runSession ["A"] 1).consumersSpawned ∧
      (runSession ["A"] 1).producerSpawned = true) ∧
    (runSession ["A"] 1).exitCode = 0 ∧
    (((runSession [] 1).consumersSpawned = 0 ∧
      (runSession [] 1).producerSpawned = false) ↔ ([] : List String) = []) :=
  ⟨(C9_spawn_iff_nonempty ["A"] 1 (by decide)).1 (by decide),
   (C9_spawn_iff_nonempty ["A"] 1 (by decide)).2.2,
   (C9_spawn_iff_nonempty [] 1 (by decide)).2.1⟩

/-- C10: for a non-empty duplicate-free final universe and ratio ≥ 1, every
shard index below the consumer count has an entry in `symbol_by_queue`, and
that entry is a non-empty sublist of the universe (so its symbols appear in
universe order); hence spawning consumer `i` never looks up a missing key and
every consumer receives a non-empty symbol list. -/
theorem C10_every_shard_nonempty (keys : List String) (r : Nat) (hr : 1 ≤ r)
    (hnd : keys.Nodup) (hne : keys ≠ []) (i : Nat)
    (hi : i < numConsumerProcesses keys.length r) :
    ∃ l, symbol_by_queue keys r i = some l ∧ l ≠ [] ∧ List.Sublist l keys := by
  have hr0 : 0 < r := hr
  have hn : 1 ≤ keys.length := List.length_pos.mpr hne
  have hp : i * r < keys.length := by
    have h1 : (i + 1) * r ≤ keys.length + r - 1 :=
      (Nat.le_div_iff_mul_le hr0).mp hi
    rw [Nat.succ_mul] at h1
    omega
  have hidx : List.indexOf (keys.get ⟨i * r, hp⟩) keys = i * r := by
    rw [List.get_eq_getElem]
    exact List.indexOf_getElem hnd (i * r) hp
  have hshard : shardIndex keys r (keys.get ⟨i * r, hp⟩) = i := by
    unfold shardIndex
    rw [hidx]
    exact Nat.mul_div_cancel i hr0
  rcases (mem_symbol_by_queue keys r (keys.get ⟨i * r, hp⟩) i).mpr
      ⟨List.get_mem keys (i * r) hp, hshard⟩ with ⟨l, hl, hsl⟩
  refine ⟨l, hl, ?_, ?_⟩
  · intro hnil
    rw [hnil] at hsl
    cases hsl
  have hchar := symbol_by_queue_eq keys r i
  rw [hl] at hchar
  by_cases hemp : (keys.filter (fun t => shardIndex keys r t == i)).isEmpty
  · rw [if_pos hemp] at hchar
    cases hchar
  · rw [if_neg hemp] at hchar
    rw [Option.some.inj hchar]
    exact List.filter_sublist keys

/-- C10 witness: universe `["A", "B", "C"]` with ratio 2 has shard 1 present,
non-empty and in universe order. -/
theorem C10_every_shard_nonempty_witness :
    ∃ l, symbol_by_queue ["A", "B", "C"] 2 1 = some l ∧ l ≠ [] ∧
      List.Sublist l ["A", "B", "C"] :=
  C10_every_shard_nonempty ["A", "B", "C"] 2 (by decide) (by decide) (by decide) 1
    (by decide)

end LiuTrader
